import Mathlib

/-!
Verification of the src-context file-selection and budget-fitting pipeline.

The definitions below are shallow embeddings of the TypeScript sources:
the token-budget allocator of `generateContext` (src/index.ts), the
discovery/classification loop of `gatherFiles` and the processing loop of
`processFiles` (src/core.ts), and the per-file helpers of
src/fileProcessors.ts.  File-system reads, the gitignore-style pattern
matchers (the external `ignore` npm package) and the BPE tokenizer (the
external `gpt-tokenizer` package) are modelled as function parameters,
exactly as the sources consume them through opaque imported functions.
-/

namespace SrcContext

/-- A processed file, `{path, content, tokenCount}` as produced by
`processFiles` and consumed by the budget allocator. -/
structure ProcessedFile where
  path : String
  content : String
  tokenCount : Nat
  deriving DecidableEq, Repr

/-- Sum of the `tokenCount` fields of a list of processed files. -/
def sumTok (l : List ProcessedFile) : Nat :=
  (l.map (fun f => f.tokenCount)).sum

/-- Insert into a list sorted ascending by `tokenCount`, keeping earlier
elements first among equals (stable, as the JS engine's `Array.sort`). -/
def insertByTok (f : ProcessedFile) : List ProcessedFile → List ProcessedFile
  | [] => [f]
  | g :: rest =>
    if g.tokenCount ≤ f.tokenCount then g :: insertByTok f rest
    else f :: g :: rest

/-- Stable ascending sort by `tokenCount`; embeds the JS
`files.sort((a, b) => a.tokenCount - b.tokenCount)` calls. -/
def sortByTok : List ProcessedFile → List ProcessedFile
  | [] => []
  | f :: rest => insertByTok f (sortByTok rest)

/-- The `priority` loop of `generateContext`'s budget section: greedily
accept a file when the running total still fits, otherwise warn and
continue with the next priority file. -/
def prioLoop (budget : Nat) : List ProcessedFile → List ProcessedFile → Nat →
    List ProcessedFile × Nat
  | [], acc, total => (acc, total)
  | f :: rest, acc, total =>
    if total + f.tokenCount ≤ budget then
      prioLoop budget rest (acc ++ [f]) (total + f.tokenCount)
    else
      prioLoop budget rest acc total

/-- The `remaining` loop of `generateContext`'s budget section: greedily
accept while the running total fits, and stop the scan entirely (`break`)
at the first file that would not fit. -/
def remLoop (budget : Nat) : List ProcessedFile → List ProcessedFile → Nat →
    List ProcessedFile × Nat
  | [], acc, total => (acc, total)
  | f :: rest, acc, total =>
    if total + f.tokenCount ≤ budget then
      remLoop budget rest (acc ++ [f]) (total + f.tokenCount)
    else
      (acc, total)

/-- The token-budget allocator of `generateContext` (active only when a
token budget is supplied): partition by the priority matcher, sort each
part ascending by token count, run the priority loop, then the remaining
loop on the same running total.  Returns the selected files together with
the final `totalTokens`. -/
def applyTokenBudget (isPriority : String → Bool) (budget : Nat)
    (processedFiles : List ProcessedFile) : List ProcessedFile × Nat :=
  let parts := processedFiles.partition (fun f => isPriority f.path)
  let sortedPriority := sortByTok parts.1
  let afterPriority := prioLoop budget sortedPriority [] 0
  let sortedRemaining := sortByTok parts.2
  remLoop budget sortedRemaining afterPriority.1 afterPriority.2

/-- Spec-side description of step 3 of the allocator: scan the files in
order, accepting each one whose token count still fits under the running
total, skipping (and continuing past) each one that does not. -/
def greedySkip (budget : Nat) (total : Nat) : List ProcessedFile → List ProcessedFile
  | [] => []
  | f :: rest =>
    if total + f.tokenCount ≤ budget then
      f :: greedySkip budget (total + f.tokenCount) rest
    else
      greedySkip budget total rest

/-- Spec-side description of step 4 of the allocator: accept while the
running total fits and stop at the first file that would exceed the
budget, never considering any later file. -/
def greedyStop (budget : Nat) (total : Nat) : List ProcessedFile → List ProcessedFile
  | [] => []
  | f :: rest =>
    if total + f.tokenCount ≤ budget then
      f :: greedyStop budget (total + f.tokenCount) rest
    else
      []

/-- The allocation described by the specification: priority files (paths
matched by the priority set) sorted ascending and filled greedily with
skip-and-continue, then the remaining files sorted ascending and filled
under the same running total with stop-at-first-miss. -/
def specBudgetSelect (isPriority : String → Bool) (budget : Nat)
    (processedFiles : List ProcessedFile) : List ProcessedFile :=
  let parts := processedFiles.partition (fun f => isPriority f.path)
  let accepted := greedySkip budget 0 (sortByTok parts.1)
  accepted ++ greedyStop budget (sumTok accepted) (sortByTok parts.2)

theorem sumTok_append (l₁ l₂ : List ProcessedFile) :
    sumTok (l₁ ++ l₂) = sumTok l₁ + sumTok l₂ := by
  simp [sumTok]

theorem prioLoop_eq_greedySkip (budget : Nat) (l acc : List ProcessedFile) (total : Nat) :
    prioLoop budget l acc total =
      (acc ++ greedySkip budget total l, total + sumTok (greedySkip budget total l)) := by
  induction l generalizing acc total with
  | nil => simp [prioLoop, greedySkip, sumTok]
  | cons f rest ih =>
    by_cases h : total + f.tokenCount ≤ budget
    · simp only [prioLoop, greedySkip, if_pos h, ih, Prod.mk.injEq]
      refine ⟨by simp, ?_⟩
      simp only [sumTok, List.map_cons, List.sum_cons]
      omega
    · simp only [prioLoop, greedySkip, if_neg h, ih]

theorem remLoop_eq_greedyStop (budget : Nat) (l acc : List ProcessedFile) (total : Nat) :
    remLoop budget l acc total =
      (acc ++ greedyStop budget total l, total + sumTok (greedyStop budget total l)) := by
  induction l generalizing acc total with
  | nil => simp [remLoop, greedyStop, sumTok]
  | cons f rest ih =>
    by_cases h : total + f.tokenCount ≤ budget
    · simp only [remLoop, greedyStop, if_pos h, ih, Prod.mk.injEq]
      refine ⟨by simp, ?_⟩
      simp only [sumTok, List.map_cons, List.sum_cons]
      omega
    · simp only [remLoop, greedyStop, if_neg h]
      simp [sumTok]

/-- C1: the allocator of `generateContext` selects exactly the files the
specification describes: priority files (ascending by token count) filled
greedily with skip-and-continue, then remaining files (ascending by token
count) filled under the same running total, stopping outright at the
first remaining file that would exceed the budget, so no later remaining
file is ever considered; and the reported total is the token sum of the
selection. -/
theorem budget_allocator_matches_spec (isPriority : String → Bool) (budget : Nat)
    (processedFiles : List ProcessedFile) :
    (applyTokenBudget isPriority budget processedFiles).1 =
      specBudgetSelect isPriority budget processedFiles ∧
    (applyTokenBudget isPriority budget processedFiles).2 =
      sumTok (specBudgetSelect isPriority budget processedFiles) := by
  simp only [applyTokenBudget, specBudgetSelect, prioLoop_eq_greedySkip,
    remLoop_eq_greedyStop, Nat.zero_add]
  refine ⟨by simp, ?_⟩
  simp only [sumTok_append]

/-- Ascending token-count order between two processed files. -/
def tokLE (a b : ProcessedFile) : Prop := a.tokenCount ≤ b.tokenCount

theorem mem_insertByTok {g f : ProcessedFile} {l : List ProcessedFile}
    (h : g ∈ insertByTok f l) : g = f ∨ g ∈ l := by
  induction l with
  | nil => simpa [insertByTok] using h
  | cons x rest ih =>
    by_cases hx : x.tokenCount ≤ f.tokenCount
    · simp only [insertByTok, if_pos hx, List.mem_cons] at h
      rcases h with rfl | h
      · exact Or.inr (List.mem_cons_self _ _)
      · rcases ih h with h | h
        · exact Or.inl h
        · exact Or.inr (List.mem_cons_of_mem x h)
    · simp only [insertByTok, if_neg hx, List.mem_cons] at h
      rcases h with rfl | rfl | h
      · exact Or.inl rfl
      · exact Or.inr (List.mem_cons_self _ _)
      · exact Or.inr (List.mem_cons_of_mem _ h)

theorem pairwise_insertByTok {f : ProcessedFile} {l : List ProcessedFile}
    (h : l.Pairwise tokLE) : (insertByTok f l).Pairwise tokLE := by
  induction l with
  | nil => simp [insertByTok, List.Pairwise]
  | cons x rest ih =>
    rcases List.pairwise_cons.mp h with ⟨hx, hrest⟩
    by_cases hle : x.tokenCount ≤ f.tokenCount
    · simp only [insertByTok, if_pos hle]
      refine List.pairwise_cons.mpr ⟨?_, ih hrest⟩
      intro g hg
      rcases mem_insertByTok hg with rfl | hg
      · exact hle
      · exact hx g hg
    · simp only [insertByTok, if_neg hle]
      refine List.pairwise_cons.mpr ⟨?_, h⟩
      intro g hg
      rcases List.mem_cons.mp hg with rfl | hg
      · exact Nat.le_of_lt (Nat.lt_of_not_le hle)
      · exact Nat.le_trans (Nat.le_of_lt (Nat.lt_of_not_le hle)) (hx g hg)

theorem sortByTok_pairwise (l : List ProcessedFile) : (sortByTok l).Pairwise tokLE := by
  induction l with
  | nil => simp [sortByTok]
  | cons f rest ih => exact pairwise_insertByTok ih

theorem greedySkip_of_none_fit (budget total : Nat) (l : List ProcessedFile)
    (h : ∀ g ∈ l, ¬ total + g.tokenCount ≤ budget) :
    greedySkip budget total l = [] := by
  induction l with
  | nil => rfl
  | cons f rest ih =>
    simp only [greedySkip, if_neg (h f (List.mem_cons_self f rest))]
    exact ih (fun g hg => h g (List.mem_cons_of_mem f hg))

/-- On a list sorted ascending by token count, the skip-and-continue
greedy scan and the stop-at-first-miss greedy scan accept the same files:
once a file does not fit, no later (necessarily at-least-as-large) file
can fit either. -/
theorem greedySkip_eq_greedyStop (budget : Nat) (l : List ProcessedFile)
    (hs : l.Pairwise tokLE) (total : Nat) :
    greedySkip budget total l = greedyStop budget total l := by
  induction l generalizing total with
  | nil => rfl
  | cons f rest ih =>
    rcases List.pairwise_cons.mp hs with ⟨hf, hrest⟩
    by_cases h : total + f.tokenCount ≤ budget
    · simp only [greedySkip, greedyStop, if_pos h]
      exact congrArg (f :: ·) (ih hrest (total + f.tokenCount))
    · simp only [greedySkip, greedyStop, if_neg h]
      exact greedySkip_of_none_fit budget total rest
        (fun g hg hfit => h (Nat.le_trans (Nat.add_le_add_left (hf g hg) total) hfit))

/-- Final running total of the stop-at-first-miss greedy scan. -/
def stopTotal (budget : Nat) (total : Nat) : List ProcessedFile → Nat
  | [] => total
  | f :: rest =>
    if total + f.tokenCount ≤ budget then
      stopTotal budget (total + f.tokenCount) rest
    else
      total

theorem stopTotal_eq_sum (budget total : Nat) (l : List ProcessedFile) :
    total + sumTok (greedyStop budget total l) = stopTotal budget total l := by
  induction l generalizing total with
  | nil => simp [greedyStop, stopTotal, sumTok]
  | cons f rest ih =>
    by_cases h : total + f.tokenCount ≤ budget
    · simp only [greedyStop, stopTotal, if_pos h]
      rw [← ih (total + f.tokenCount)]
      simp only [sumTok, List.map_cons, List.sum_cons]
      omega
    · simp only [greedyStop, stopTotal, if_neg h]
      simp [sumTok]

theorem le_stopTotal (budget total : Nat) (l : List ProcessedFile) :
    total ≤ stopTotal budget total l := by
  induction l generalizing total with
  | nil => simp [stopTotal]
  | cons f rest ih =>
    by_cases h : total + f.tokenCount ≤ budget
    · simp only [stopTotal, if_pos h]
      exact Nat.le_trans (Nat.le_add_right total f.tokenCount) (ih (total + f.tokenCount))
    · simp [stopTotal, if_neg h]

theorem stopTotal_le_budget (budget total : Nat) (l : List ProcessedFile)
    (h : total ≤ budget) : stopTotal budget total l ≤ budget := by
  induction l generalizing total with
  | nil => simpa [stopTotal]
  | cons f rest ih =>
    by_cases hfit : total + f.tokenCount ≤ budget
    · simp only [stopTotal, if_pos hfit]
      exact ih (total + f.tokenCount) hfit
    · simpa [stopTotal, if_neg hfit]

theorem stopTotal_mono (b1 b2 total : Nat) (l : List ProcessedFile) (hb : b1 ≤ b2) :
    stopTotal b1 total l ≤ stopTotal b2 total l := by
  induction l generalizing total with
  | nil => simp [stopTotal]
  | cons f rest ih =>
    by_cases h1 : total + f.tokenCount ≤ b1
    · rw [stopTotal, if_pos h1, stopTotal, if_pos (Nat.le_trans h1 hb)]
      exact ih (total + f.tokenCount)
    · rw [stopTotal, if_neg h1]
      by_cases h2 : total + f.tokenCount ≤ b2
      · rw [stopTotal, if_pos h2]
        exact Nat.le_trans (Nat.le_add_right total f.tokenCount)
          (le_stopTotal b2 (total + f.tokenCount) rest)
      · rw [stopTotal, if_neg h2]

theorem stopTotal_dichotomy (b1 b2 total : Nat) (l : List ProcessedFile) (hb : b1 ≤ b2) :
    stopTotal b2 total l = stopTotal b1 total l ∨ b1 < stopTotal b2 total l := by
  induction l generalizing total with
  | nil => exact Or.inl rfl
  | cons f rest ih =>
    simp only [stopTotal]
    by_cases h1 : total + f.tokenCount ≤ b1
    · rw [if_pos h1, if_pos (Nat.le_trans h1 hb)]
      exact ih (total + f.tokenCount)
    · rw [if_neg h1]
      by_cases h2 : total + f.tokenCount ≤ b2
      · rw [if_pos h2]
        refine Or.inr (Nat.lt_of_lt_of_le (Nat.lt_of_not_le h1) ?_)
        exact le_stopTotal b2 (total + f.tokenCount) rest
      · rw [if_neg h2]
        exact Or.inl rfl

/-- The allocator's final running total, expressed through `stopTotal` on
the two sorted parts. -/
theorem applyTokenBudget_total (isPriority : String → Bool) (budget : Nat)
    (files : List ProcessedFile) :
    (applyTokenBudget isPriority budget files).2 =
      stopTotal budget
        (stopTotal budget 0
          (sortByTok (files.partition (fun f => isPriority f.path)).1))
        (sortByTok (files.partition (fun f => isPriority f.path)).2) := by
  simp only [applyTokenBudget, prioLoop_eq_greedySkip, remLoop_eq_greedyStop]
  rw [greedySkip_eq_greedyStop budget _ (sortByTok_pairwise _) 0]
  rw [stopTotal_eq_sum, stopTotal_eq_sum]

/-- The allocator's reported total is the token sum of its selection. -/
theorem applyTokenBudget_total_eq_sumTok (isPriority : String → Bool) (budget : Nat)
    (files : List ProcessedFile) :
    sumTok (applyTokenBudget isPriority budget files).1 =
      (applyTokenBudget isPriority budget files).2 := by
  simp only [applyTokenBudget, prioLoop_eq_greedySkip, remLoop_eq_greedyStop]
  simp [sumTok_append]

/-- C2: for a fixed processed-file list and priority set, the token total
selected by the budget allocator is monotone in the budget, and for any
budget the selected token total never exceeds the budget. -/
theorem budget_monotone_and_bounded (isPriority : String → Bool)
    (files : List ProcessedFile) (b1 b2 budget : Nat) :
    (b1 < b2 →
      sumTok (applyTokenBudget isPriority b1 files).1 ≤
        sumTok (applyTokenBudget isPriority b2 files).1) ∧
    sumTok (applyTokenBudget isPriority budget files).1 ≤ budget := by
  constructor
  · intro hb
    rw [applyTokenBudget_total_eq_sumTok, applyTokenBudget_total_eq_sumTok,
      applyTokenBudget_total, applyTokenBudget_total]
    set P := sortByTok (files.partition (fun f => isPriority f.path)).1
    set R := sortByTok (files.partition (fun f => isPriority f.path)).2
    rcases stopTotal_dichotomy b1 b2 0 P (Nat.le_of_lt hb) with heq | hlt
    · rw [heq]
      exact stopTotal_mono b1 b2 _ R (Nat.le_of_lt hb)
    · have h1 : stopTotal b1 (stopTotal b1 0 P) R ≤ b1 :=
        stopTotal_le_budget b1 _ R (stopTotal_le_budget b1 0 P (Nat.zero_le b1))
      have h2 : stopTotal b2 0 P ≤ stopTotal b2 (stopTotal b2 0 P) R :=
        le_stopTotal b2 _ R
      omega
  · rw [applyTokenBudget_total_eq_sumTok, applyTokenBudget_total]
    exact stopTotal_le_budget budget _ _
      (stopTotal_le_budget budget 0 _ (Nat.zero_le budget))

/-- Witness for C2 at a concrete input: budgets 3 < 10 over two files of
4 and 6 tokens. -/
theorem budget_monotone_and_bounded_witness :
    (3 < 10 →
      sumTok (applyTokenBudget (fun _ => false) 3
          [⟨"a.js", "a", 4⟩, ⟨"b.js", "b", 6⟩]).1 ≤
        sumTok (applyTokenBudget (fun _ => false) 10
          [⟨"a.js", "a", 4⟩, ⟨"b.js", "b", 6⟩]).1) ∧
    sumTok (applyTokenBudget (fun _ => false) 7
        [⟨"a.js", "a", 4⟩, ⟨"b.js", "b", 6⟩]).1 ≤ 7 := by
  have h := budget_monotone_and_bounded (fun _ => false)
    [⟨"a.js", "a", 4⟩, ⟨"b.js", "b", 6⟩] 3 10 7
  exact ⟨h.1, h.2⟩

/-! ## File discovery and classification (`gatherFiles`, src/core.ts)

The filtering loop of the current `gatherFiles` is embedded over an
arbitrary list of discovered candidate paths (`allFiles`, produced by the
glob walk) and arbitrary matcher functions standing for the
`ignore`-package instances (`minifyIgnore.ignores`,
`combinedIgnore.ignores`, `cliIgnore.ignores`, `customIgnore.ignores`,
`defaultIgnore.ignores`). -/

/-- Normalize backslashes to forward slashes (JS `replace(/\\/g, '/')`). -/
def normSlashes (s : String) : String :=
  String.mk (s.data.map (fun c => if c = '\\' then '/' else c))

/-- JS `a.startsWith(b)`. -/
def strStartsWith (s p : String) : Bool :=
  p.data.isPrefixOf s.data

/-- JS `s.slice(n)` (drop the first `n` code units). -/
def strDrop (s : String) (n : Nat) : String :=
  String.mk (s.data.drop n)

/-- JS `s.length`. -/
def strLen (s : String) : Nat :=
  s.data.length

/-- Boolean substring test on character lists (JS `String.includes`). -/
def containsSeq (needle : List Char) : List Char → Bool
  | [] => needle.isPrefixOf []
  | c :: rest => needle.isPrefixOf (c :: rest) || containsSeq needle rest

/-- The unconditional `.git` safety test at the top of `gatherFiles`'
filtering loop: the normalized path contains `.git/` or ends in `.git`. -/
def isGitPath (file : String) : Bool :=
  let n := normSlashes file
  containsSeq ".git/".data n.data || ".git".data.isSuffixOf n.data

/-- Strip one leading slash or backslash (JS `replace(/^[\/\\]/, '')`). -/
def stripLeadSlash (s : String) : String :=
  match s.data with
  | [] => ""
  | c :: rest => if c = '/' || c = '\\' then String.mk rest else s

/-- The `for (const inputPath of inputPaths)` prefix-stripping loop that
computes the path used for pattern matching. -/
def relFromInputPaths (file : String) : List String → String
  | [] => file
  | ip :: rest =>
    if strStartsWith file ip then stripLeadSlash (strDrop file (strLen ip))
    else relFromInputPaths file rest

/-- `relativePathForIgnore`: strip the matching input-path prefix, fall
back to the full path when the result is empty, normalize slashes. -/
def relPathForIgnore (inputPaths : List String) (file : String) : String :=
  let r := relFromInputPaths file inputPaths
  let r := if r.data.isEmpty then file else r
  normSlashes r

/-- The pattern-matching environment of one `gatherFiles` run: the input
paths and the five `ignore`-package matchers, plus the two emptiness
flags the source tests before consulting the CLI/custom matchers. -/
structure IgnoreCtx where
  inputPaths : List String
  minifyMatch : String → Bool
  combinedMatch : String → Bool
  cliMatch : String → Bool
  customMatch : String → Bool
  defaultMatch : String → Bool
  hasCliPatterns : Bool
  hasCustomPatterns : Bool

/-- Attribution tier of an ignored file. -/
inductive Tier
  | byDefault
  | byCustom
  | byCli
  deriving DecidableEq, Repr

/-- Classification of one candidate path by the filtering loop. -/
inductive FileClass
  | gitFiltered
  | minified
  | ignored (t : Tier)
  | included
  deriving DecidableEq, Repr

/-- The body of `gatherFiles`' filtering loop for one candidate path:
the unconditional `.git` safety check (counted as ignored-by-default),
then the minify matcher, then the combined ignore matcher with tier
attribution (CLI > custom > default, falling back to default). -/
def classifyFile (ctx : IgnoreCtx) (file : String) : FileClass :=
  if isGitPath file then .gitFiltered
  else
    let rel := relPathForIgnore ctx.inputPaths file
    if ctx.minifyMatch rel then .minified
    else if ctx.combinedMatch rel then
      if ctx.hasCliPatterns && ctx.cliMatch rel then .ignored .byCli
      else if ctx.hasCustomPatterns && ctx.customMatch rel then .ignored .byCustom
      else if ctx.defaultMatch rel then .ignored .byDefault
      else .ignored .byDefault
    else .included

/-- Accumulated output of the filtering loop. -/
structure GatherResult where
  filesToInclude : List String
  filesToMinify : List String
  ignoredByDefault : Nat
  ignoredByCustom : Nat
  ignoredByCli : Nat
  deriving DecidableEq, Repr

/-- The filtering loop of `gatherFiles` over the discovered files. -/
def gatherLoop (ctx : IgnoreCtx) : List String → GatherResult
  | [] => ⟨[], [], 0, 0, 0⟩
  | file :: rest =>
    let r := gatherLoop ctx rest
    match classifyFile ctx file with
    | .gitFiltered => {r with ignoredByDefault := r.ignoredByDefault + 1}
    | .minified => {r with filesToMinify := file :: r.filesToMinify}
    | .ignored .byDefault => {r with ignoredByDefault := r.ignoredByDefault + 1}
    | .ignored .byCustom => {r with ignoredByCustom := r.ignoredByCustom + 1}
    | .ignored .byCli => {r with ignoredByCli := r.ignoredByCli + 1}
    | .included => {r with filesToInclude := file :: r.filesToInclude}

/-- The statistics fields `gatherFiles` sets after its loop. -/
structure GatherStats where
  totalFilesFound : Nat
  filesToInclude : Nat
  filesToMinify : Nat
  filesIgnored : Nat
  filesIgnoredByDefault : Nat
  filesIgnoredByCustom : Nat
  filesIgnoredByCli : Nat
  deriving DecidableEq, Repr

/-- `gatherFiles`, from the discovered candidate list onward: run the
filtering loop and assemble the returned lists and statistics. -/
def gatherFiles (ctx : IgnoreCtx) (allFiles : List String) :
    GatherResult × GatherStats :=
  let r := gatherLoop ctx allFiles
  (r,
    { totalFilesFound := allFiles.length,
      filesToInclude := r.filesToInclude.length,
      filesToMinify := r.filesToMinify.length,
      filesIgnored := r.ignoredByDefault + r.ignoredByCustom + r.ignoredByCli,
      filesIgnoredByDefault := r.ignoredByDefault,
      filesIgnoredByCustom := r.ignoredByCustom,
      filesIgnoredByCli := r.ignoredByCli })

theorem gatherLoop_partitions (ctx : IgnoreCtx) (files : List String) :
    (gatherLoop ctx files).filesToInclude.length +
      (gatherLoop ctx files).filesToMinify.length +
      ((gatherLoop ctx files).ignoredByDefault +
        (gatherLoop ctx files).ignoredByCustom +
        (gatherLoop ctx files).ignoredByCli) = files.length := by
  induction files with
  | nil => simp [gatherLoop]
  | cons file rest ih =>
    simp only [gatherLoop]
    cases hc : classifyFile ctx file with
    | gitFiltered => simp only [List.length_cons]; omega
    | minified => simp only [List.length_cons]; omega
    | ignored t => cases t <;> simp only [List.length_cons] <;> omega
    | included => simp only [List.length_cons]; omega

/-- C4: after `gatherFiles`, `filesIgnored` equals the sum of the three
per-tier counters, and include + minify + ignored counts add up to
`totalFilesFound` (size-skipped files play no role: size skipping happens
later, in `processFiles`). -/
theorem gather_stats_identities (ctx : IgnoreCtx) (allFiles : List String) :
    (gatherFiles ctx allFiles).2.filesIgnored =
      (gatherFiles ctx allFiles).2.filesIgnoredByDefault +
        (gatherFiles ctx allFiles).2.filesIgnoredByCustom +
        (gatherFiles ctx allFiles).2.filesIgnoredByCli ∧
    (gatherFiles ctx allFiles).2.filesToInclude +
        (gatherFiles ctx allFiles).2.filesToMinify +
        (gatherFiles ctx allFiles).2.filesIgnored =
      (gatherFiles ctx allFiles).2.totalFilesFound := by
  refine ⟨rfl, ?_⟩
  simpa [gatherFiles] using gatherLoop_partitions ctx allFiles

theorem mem_gatherLoop_include {ctx : IgnoreCtx} {files : List String} {f : String}
    (h : f ∈ (gatherLoop ctx files).filesToInclude) :
    classifyFile ctx f = FileClass.included := by
  induction files with
  | nil => simp [gatherLoop] at h
  | cons file rest ih =>
    simp only [gatherLoop] at h
    cases hc : classifyFile ctx file <;> rw [hc] at h
    case gitFiltered => exact ih h
    case minified => exact ih h
    case ignored t => cases t <;> exact ih h
    case included =>
      rcases List.mem_cons.mp h with rfl | h
      · exact hc
      · exact ih h

theorem mem_gatherLoop_minify {ctx : IgnoreCtx} {files : List String} {f : String}
    (h : f ∈ (gatherLoop ctx files).filesToMinify) :
    classifyFile ctx f = FileClass.minified := by
  induction files with
  | nil => simp [gatherLoop] at h
  | cons file rest ih =>
    simp only [gatherLoop] at h
    cases hc : classifyFile ctx file <;> rw [hc] at h
    case gitFiltered => exact ih h
    case included => exact ih h
    case ignored t => cases t <;> exact ih h
    case minified =>
      rcases List.mem_cons.mp h with rfl | h
      · exact hc
      · exact ih h

theorem classifyFile_git {ctx : IgnoreCtx} {f : String} (h : isGitPath f = true) :
    classifyFile ctx f = FileClass.gitFiltered := by
  simp [classifyFile, h]

/-- C6: no `.git` entry (a path containing `.git/` or ending in `.git`)
ever appears in `gatherFiles`' result set — the union of
`filesToInclude` and `filesToMinify` — for any matcher functions
whatsoever (in particular for any minify set, any negations, and with the
default ignore set disabled): the safety check precedes all pattern
matching. -/
theorem gather_never_admits_git (ctx : IgnoreCtx) (allFiles : List String) (f : String)
    (h : f ∈ (gatherFiles ctx allFiles).1.filesToInclude ∨
        f ∈ (gatherFiles ctx allFiles).1.filesToMinify) :
    isGitPath f = false := by
  by_contra hgit
  have hg : isGitPath f = true := by
    cases hv : isGitPath f
    · exact absurd hv hgit
    · rfl
  rcases h with h | h
  · have := mem_gatherLoop_include h
    rw [classifyFile_git hg] at this
    exact FileClass.noConfusion this
  · have := mem_gatherLoop_minify h
    rw [classifyFile_git hg] at this
    exact FileClass.noConfusion this

/-- Witness for C6: a concrete run containing both an ordinary file and a
`.git` file, with a minify matcher that would admit the `.git` file. -/
theorem gather_never_admits_git_witness :
    isGitPath "src/a.js" = false :=
  gather_never_admits_git
    { inputPaths := [],
      minifyMatch := fun _ => true,
      combinedMatch := fun _ => false,
      cliMatch := fun _ => false,
      customMatch := fun _ => false,
      defaultMatch := fun _ => false,
      hasCliPatterns := false,
      hasCustomPatterns := false }
    ["src/a.js", ".git/config"] "src/a.js" (by decide)

/-- The matcher environment of the C3 counterexample: a minify set that
matches every path (as `.contextminify` containing `**` would), no
ignore patterns at all. -/
def minifyAllCtx : IgnoreCtx :=
  { inputPaths := [],
    minifyMatch := fun _ => true,
    combinedMatch := fun _ => false,
    cliMatch := fun _ => false,
    customMatch := fun _ => false,
    defaultMatch := fun _ => false,
    hasCliPatterns := false,
    hasCustomPatterns := false }

/-- C3 counterexample: the candidate path `.git/config` is matched by the
minify set, yet `gatherFiles` classifies it as ignored (counted in
`filesIgnored`/`filesIgnoredByDefault`) and not as minify, because the
unconditional `.git` safety check runs before the minify check. -/
theorem minify_precedence_counterexample :
    minifyAllCtx.minifyMatch (relPathForIgnore minifyAllCtx.inputPaths ".git/config") = true ∧
    (gatherFiles minifyAllCtx [".git/config"]).1.filesToMinify = [] ∧
    (gatherFiles minifyAllCtx [".git/config"]).2.filesIgnored = 1 ∧
    (gatherFiles minifyAllCtx [".git/config"]).2.filesIgnoredByDefault = 1 := by
  refine ⟨rfl, ?_, ?_, ?_⟩ <;> rfl

/-- C3 amended: for every discovered candidate path that survives the
unconditional `.git` safety filter, a minify-set match classifies the
path as minify-only — never as ignored — regardless of the default,
custom or CLI ignore matchers, because the minify check precedes the
ignore evaluation. -/
theorem minify_precedence_amended (ctx : IgnoreCtx) (allFiles : List String) (f : String)
    (hgit : isGitPath f = false)
    (hmin : ctx.minifyMatch (relPathForIgnore ctx.inputPaths f) = true) :
    classifyFile ctx f = FileClass.minified ∧
    (f ∈ allFiles → f ∈ (gatherFiles ctx allFiles).1.filesToMinify) := by
  have hclass : classifyFile ctx f = FileClass.minified := by
    simp [classifyFile, hgit, hmin]
  refine ⟨hclass, ?_⟩
  intro hf
  induction allFiles with
  | nil => simp at hf
  | cons file rest ih =>
    simp only [gatherFiles, gatherLoop]
    rcases List.mem_cons.mp hf with rfl | hf
    · rw [hclass]
      exact List.mem_cons_self _ _
    · have hmem := ih hf
      simp only [gatherFiles] at hmem
      cases hc : classifyFile ctx file
      case gitFiltered => exact hmem
      case included => exact hmem
      case ignored t => cases t <;> exact hmem
      case minified => exact List.mem_cons_of_mem _ hmem

/-- Witness for C3's amended theorem: a non-`.git` path matched by the
minify set lands in `filesToMinify` even though every ignore matcher also
flags it. -/
theorem minify_precedence_amended_witness :
    classifyFile
        { inputPaths := [],
          minifyMatch := fun p => p = "package-lock.json",
          combinedMatch := fun _ => true,
          cliMatch := fun _ => true,
          customMatch := fun _ => true,
          defaultMatch := fun _ => true,
          hasCliPatterns := true,
          hasCustomPatterns := true }
        "package-lock.json" = FileClass.minified ∧
    ("package-lock.json" ∈ ["package-lock.json"] →
      "package-lock.json" ∈
        (gatherFiles
          { inputPaths := [],
            minifyMatch := fun p => p = "package-lock.json",
            combinedMatch := fun _ => true,
            cliMatch := fun _ => true,
            customMatch := fun _ => true,
            defaultMatch := fun _ => true,
            hasCliPatterns := true,
            hasCustomPatterns := true }
          ["package-lock.json"]).1.filesToMinify) :=
  minify_precedence_amended _ ["package-lock.json"] "package-lock.json"
    (by decide) (by decide)

/-! ## Per-file content transformation (src/fileProcessors.ts)

Strings are manipulated through their character lists (`String.data`),
which models JavaScript's code-unit string operations faithfully for the
ASCII content at issue.  The external BPE tokenizer (`encode(...).length`
of gpt-tokenizer) appears as a parameter `enc : String → Nat`, and the
external generic comment stripper (the strip-comments package, invoked
with `stripHtmlComments`, `preserveNewlines` and `safe` set) as a
parameter `strip : String → Option String`, `none` standing for a throw
or failed import, on which the source falls back to the original
content. -/

/-- Is this character whitespace (model of the JS whitespace class used
by `trim`/`trimEnd`)? -/
def charWS (c : Char) : Bool := c.isWhitespace

/-- JS `s.trimStart()` on a character list. -/
def trimStartChars (l : List Char) : List Char := l.dropWhile charWS

/-- JS `s.trimEnd()` on a character list. -/
def trimEndChars (l : List Char) : List Char := (l.reverse.dropWhile charWS).reverse

/-- JS `s.trim()` on a character list. -/
def trimChars (l : List Char) : List Char := trimEndChars (trimStartChars l)

/-- The single-quote character (written by code point to keep the
development free of quote-literal pitfalls). -/
def squote : Char := Char.ofNat 39

/-- JS `s.split(sep)` on a character list: always at least one (possibly
empty) field. -/
def splitOnChar (sep : Char) : List Char → List (List Char)
  | [] => [[]]
  | c :: t =>
    match splitOnChar sep t with
    | [] => [[c]]
    | hd :: tl => if c = sep then [] :: hd :: tl else (c :: hd) :: tl

/-- JS `parts.join(sep)` on character lists. -/
def joinChar (sep : Char) : List (List Char) → List Char
  | [] => []
  | [l] => l
  | l :: l₂ :: ls => l ++ sep :: joinChar sep (l₂ :: ls)

/-- JS `s.indexOf(needle)` on character lists (`none` for `-1`). -/
def idxOfSeq (needle : List Char) : List Char → Option Nat
  | [] => if needle.isPrefixOf [] then some 0 else none
  | c :: rest =>
    if needle.isPrefixOf (c :: rest) then some 0
    else (idxOfSeq needle rest).map (· + 1)

/-- `path.split('.').pop()?.toLowerCase() || ''` — the lowercase
extension used throughout fileProcessors.ts. -/
def extOf (path : String) : String :=
  String.mk (((splitOnChar '.' path.data).getLastD []).map Char.toLower)

/-- Node's `basename(path)` (posix): the component after the last `/`. -/
def basenameStr (path : String) : String :=
  String.mk ((splitOnChar '/' path.data).getLastD [])

/-- Boolean string equality through the character lists. -/
def strEqB (a b : String) : Bool := a.data == b.data

/-- `isWhitespaceSensitive` of fileProcessors.ts: `Makefile`/`*.mk`
filenames, or an extension in the whitespace-sensitive list (note:
`py` is *not* in this list; Python is handled by a separate flag). -/
def isWhitespaceSensitive (path : String) : Bool :=
  let filename := String.mk ((basenameStr path).data.map Char.toLower)
  if strEqB filename "makefile" || ".mk".data.isSuffixOf filename.data then true
  else
    ["yaml", "yml", "haml", "pug", "sass", "styl", "hs", "fs", "coffee", "ws"].any
      (fun e => strEqB e (extOf path))

/-- `isPythonFilePath` of fileProcessors.ts. -/
def isPythonFilePath (path : String) : Bool := strEqB (extOf path) "py"

/-- The newline-run collapse of `removeExtraWhitespace`
(`replace(/\n{3,}/g, '\n\n')`): keep at most two consecutive newlines. -/
def collapseNLAux : List Char → Nat → List Char
  | [], _ => []
  | c :: rest, run =>
    if c = '\n' then
      if run + 1 ≥ 3 then collapseNLAux rest (run + 1)
      else '\n' :: collapseNLAux rest (run + 1)
    else c :: collapseNLAux rest 0

/-- `removeExtraWhitespace` of fileProcessors.ts: collapse 3+ newlines to
2, right-trim each line, trim the whole content. -/
def removeExtraWhitespace (content : String) : String :=
  let c₁ := collapseNLAux content.data 0
  let c₂ := joinChar '\n' ((splitOnChar '\n' c₁).map trimEndChars)
  String.mk (trimChars c₂)

/-! ### `processPythonContent` (src/fileProcessors.ts lines 186-293) -/

/-- The two triple-quote delimiters tracked by the Python stripper. -/
inductive TripleQuote
  | dq
  | sq
  deriving DecidableEq, Repr

/-- Characters of the `"""` delimiter. -/
def dq3 : List Char := ['"', '"', '"']

/-- Characters of the `'''` delimiter. -/
def sq3 : List Char := [squote, squote, squote]

/-- Delimiter characters of a tracked triple quote. -/
def tqSeq : TripleQuote → List Char
  | .dq => dq3
  | .sq => sq3

/-- The character scanner of `processPythonContent`: walk the line
tracking escape and single/double-quote state; return the part of the
line before the first unquoted `#` (`none` when there is no comment). -/
def codeBeforeHash : List Char → Bool → Bool → Bool → Option (List Char)
  | [], _, _, _ => none
  | c :: rest, escaped, inSingle, inDouble =>
    if escaped then (codeBeforeHash rest false inSingle inDouble).map (c :: ·)
    else if c = '\\' then (codeBeforeHash rest true inSingle inDouble).map (c :: ·)
    else if c = '"' && !inSingle then
      (codeBeforeHash rest false inSingle (!inDouble)).map (c :: ·)
    else if c = squote && !inDouble then
      (codeBeforeHash rest false (!inSingle) inDouble).map (c :: ·)
    else if c = '#' && !inSingle && !inDouble then some []
    else (codeBeforeHash rest false inSingle inDouble).map (c :: ·)

/-- Comment handling for a line outside any docstring: cut at the first
unquoted `#` and right-trim what precedes it, or keep the line. -/
def stripLineComment (line : List Char) : List Char :=
  match codeBeforeHash line false false false with
  | some beforeComment => trimEndChars beforeComment
  | none => line

/-- The line loop of `processPythonContent`: track triple-quoted strings
across lines; keep docstring lines verbatim; strip `#` comments from code
lines.  A line whose trimmed form contains `"""` (checked first) or `'''`
is kept whole: it either opens/closes a docstring or contains a
single-line one. -/
def pyLoop : List (List Char) → Option TripleQuote → List (List Char)
  | [], _ => []
  | line :: rest, state =>
    let trimmedLine := trimChars line
    match state with
    | none =>
      if containsSeq dq3 trimmedLine then
        let firstTQ := (idxOfSeq dq3 trimmedLine).getD 0
        match idxOfSeq dq3 (trimmedLine.drop (firstTQ + 3)) with
        | some j =>
          if firstTQ + 3 + j ≠ firstTQ then line :: pyLoop rest none
          else line :: pyLoop rest (some .dq)
        | none => line :: pyLoop rest (some .dq)
      else if containsSeq sq3 trimmedLine then
        let firstTQ := (idxOfSeq sq3 trimmedLine).getD 0
        match idxOfSeq sq3 (trimmedLine.drop (firstTQ + 3)) with
        | some j =>
          if firstTQ + 3 + j ≠ firstTQ then line :: pyLoop rest none
          else line :: pyLoop rest (some .sq)
        | none => line :: pyLoop rest (some .sq)
      else stripLineComment line :: pyLoop rest none
    | some tq =>
      if containsSeq (tqSeq tq) trimmedLine then line :: pyLoop rest none
      else line :: pyLoop rest (some tq)

/-- `processPythonContent`: split into lines, run the loop from the
outside-docstring state, join with newlines. -/
def processPythonContent (content : String) : String :=
  String.mk (joinChar '\n' (pyLoop (splitOnChar '\n' content.data) none))

/-! ### Formatting, placeholders and the text pipeline -/

/-- `formatFileContent` of fileProcessors.ts: binary/SVG placeholders get
a bare header, everything else a fenced code block tagged with the
lowercase extension. -/
def formatFileContent (path content : String) : String :=
  let ext := extOf path
  if strStartsWith content "[Content of binary file:" ||
      strStartsWith content "[Content of SVG file:" then
    "# " ++ path ++ "\n\n" ++ content
  else
    "# " ++ path ++ "\n\n```" ++ ext ++ "\n" ++ content ++ "\n```"

/-- Options consumed by `readAndProcessTextFile`. -/
structure FileProcessingOptions where
  removeWhitespace : Bool
  stripFileComments : Bool
  maxFileSizeKB : Option Nat

/-- The content computed by the `≤ 100 KB` branch of
`readAndProcessTextFile` before formatting: optional comment stripping
(Python files via `processPythonContent`, others via the external
stripper with fallback), then optional whitespace normalization, from
which Python files and whitespace-sensitive files are exempt. -/
def processedTextContent (strip : String → Option String)
    (filePath fileContent : String) (opts : FileProcessingOptions) : String :=
  let isPythonFile := isPythonFilePath filePath
  let processedContent :=
    if opts.stripFileComments && !isWhitespaceSensitive filePath then
      if isPythonFile then processPythonContent fileContent
      else
        match strip fileContent with
        | some s => s
        | none => fileContent
    else fileContent
  if opts.removeWhitespace && !isWhitespaceSensitive filePath && !isPythonFile then
    removeExtraWhitespace processedContent
  else processedContent

/-- The `≤ 100 KB` branch of `readAndProcessTextFile`: compute the final
content, count its tokens, and format it. -/
def readAndProcessTextFile (enc : String → Nat) (strip : String → Option String)
    (filePath fileContent : String) (opts : FileProcessingOptions) : ProcessedFile :=
  let content := processedTextContent strip filePath fileContent opts
  { path := filePath,
    content := formatFileContent filePath content,
    tokenCount := enc content }

/-- The placeholder computed by `handleBinaryOrSvgFile` before
formatting. -/
def binaryPlaceholder (filePath : String) (isSvg : Bool)
    (onBinaryFile : Option (String → String)) : String :=
  match onBinaryFile with
  | some f => f filePath
  | none =>
    if isSvg then "[Content of SVG file: " ++ filePath ++ "]"
    else "[Content of binary file: " ++ filePath ++ "]"

/-- `handleBinaryOrSvgFile` of fileProcessors.ts: token count over the
placeholder, content the formatted placeholder. -/
def handleBinaryOrSvgFile (enc : String → Nat) (filePath : String) (isSvg : Bool)
    (onBinaryFile : Option (String → String)) : ProcessedFile :=
  let content := binaryPlaceholder filePath isSvg onBinaryFile
  { path := filePath,
    content := formatFileContent filePath content,
    tokenCount := enc content }

/-- The placeholder computed by `processMinifiedFile` before
formatting. -/
def minifyPlaceholder (filePath : String) (onMinifyFile : Option (String → String)) : String :=
  match onMinifyFile with
  | some f => f filePath
  | none => "[Content for " ++ filePath ++ " has been minified and excluded]"

/-- `processMinifiedFile` of fileProcessors.ts: the token count is taken
over the *formatted* placeholder. -/
def processMinifiedFile (enc : String → Nat) (filePath : String)
    (onMinifyFile : Option (String → String)) : ProcessedFile :=
  let placeholderContent := minifyPlaceholder filePath onMinifyFile
  let formattedPlaceholder := formatFileContent filePath placeholderContent
  { path := filePath,
    content := formattedPlaceholder,
    tokenCount := enc formattedPlaceholder }

/-- The bracketed message computed by `handleFileError`. -/
def errorPlaceholder (filePath errMsg : String) : String :=
  "[Error: Could not read file " ++ filePath ++ ". " ++ errMsg ++ "]"

/-- `handleFileError` of fileProcessors.ts: error placeholder, its own
token count, formatted content. -/
def handleFileError (enc : String → Nat) (filePath errMsg : String) : ProcessedFile :=
  let errorContent := errorPlaceholder filePath errMsg
  { path := filePath,
    content := formatFileContent filePath errorContent,
    tokenCount := enc errorContent }

/-- C5 counterexample: for a concrete text file (`a.js` containing `x`,
no stripping, no whitespace removal) and a concrete deterministic
tokenizer (`String.length`), the `tokenCount` field is the tokenizer of
the unformatted text (1), not of the formatted `content` field
(`# a.js` + fenced block, 19): the claimed identity fails. -/
theorem tokenCount_on_formatted_counterexample :
    (readAndProcessTextFile String.length (fun _ => none) "a.js" "x"
        ⟨false, false, none⟩).tokenCount ≠
      String.length ((readAndProcessTextFile String.length (fun _ => none) "a.js" "x"
        ⟨false, false, none⟩).content) := by
  decide

/-- C5 amended: for every tokenizer, stripper and input, the
`tokenCount` of a text file, of a binary/SVG placeholder and of an error
placeholder is the tokenizer applied to the *pre-formatting* content (the
processed text or bare placeholder), while the `content` field is the
formatted block; only the minify placeholder's `tokenCount` is computed
over its formatted `content`. -/
theorem tokenCount_computed_before_formatting (enc : String → Nat)
    (strip : String → Option String) (path fileContent errMsg : String)
    (opts : FileProcessingOptions) (isSvg : Bool)
    (onBin onMin : Option (String → String)) :
    (readAndProcessTextFile enc strip path fileContent opts).tokenCount =
        enc (processedTextContent strip path fileContent opts) ∧
    (readAndProcessTextFile enc strip path fileContent opts).content =
        formatFileContent path (processedTextContent strip path fileContent opts) ∧
    (handleBinaryOrSvgFile enc path isSvg onBin).tokenCount =
        enc (binaryPlaceholder path isSvg onBin) ∧
    (handleBinaryOrSvgFile enc path isSvg onBin).content =
        formatFileContent path (binaryPlaceholder path isSvg onBin) ∧
    (processMinifiedFile enc path onMin).tokenCount =
        enc ((processMinifiedFile enc path onMin).content) ∧
    (handleFileError enc path errMsg).tokenCount = enc (errorPlaceholder path errMsg) ∧
    (handleFileError enc path errMsg).content =
        formatFileContent path (errorPlaceholder path errMsg) :=
  ⟨rfl, rfl, rfl, rfl, rfl, rfl, rfl⟩

/-- C8: for a Go file (`main.go`), the embedded text pipeline applies the
external generic stripper uniformly to the whole content — the result is
exactly the stripper's output (or the original on stripper failure),
formatted; the repository code contains no special case that would shield
a `//go:` directive line from whatever the stripper removes. -/
theorem go_file_stripped_uniformly (enc : String → Nat)
    (strip : String → Option String) (fileContent : String) :
    readAndProcessTextFile enc strip "main.go" fileContent ⟨false, true, none⟩ =
      { path := "main.go",
        content := formatFileContent "main.go" ((strip fileContent).getD fileContent),
        tokenCount := enc ((strip fileContent).getD fileContent) } := by
  cases h : strip fileContent with
  | some s =>
    simp [readAndProcessTextFile, processedTextContent, h,
      (by decide : isWhitespaceSensitive "main.go" = false),
      (by decide : isPythonFilePath "main.go" = false)]
  | none =>
    simp [readAndProcessTextFile, processedTextContent, h,
      (by decide : isWhitespaceSensitive "main.go" = false),
      (by decide : isPythonFilePath "main.go" = false)]

theorem strEqB_iff {a b : String} : strEqB a b = true ↔ a = b := by
  constructor
  · intro h
    have hd : a.data = b.data := by simpa [strEqB] using h
    cases a
    cases b
    exact congrArg String.mk (by simpa using hd)
  · intro h
    subst h
    simp [strEqB]

/-- The whitespace-sensitivity domain named by the claim: extension
`py`, `yaml`, `yml`, `haml`, `pug`, `sass`, `styl`, `hs`, `fs` or
`coffee`, or a file named `Makefile` or ending in `.mk`. -/
def claimWhitespaceSensitive (path : String) : Bool :=
  let filename := String.mk ((basenameStr path).data.map Char.toLower)
  strEqB filename "makefile" || ".mk".data.isSuffixOf filename.data ||
    ["py", "yaml", "yml", "haml", "pug", "sass", "styl", "hs", "fs", "coffee"].any
      (fun e => strEqB e (extOf path))

theorem claimWS_code_cover {path : String} (h : claimWhitespaceSensitive path = true) :
    isWhitespaceSensitive path = true ∨ isPythonFilePath path = true := by
  simp only [claimWhitespaceSensitive, Bool.or_eq_true, List.any_eq_true] at h
  rcases h with (hmk | hmk) | ⟨e, he, heq⟩
  · left
    simp [isWhitespaceSensitive, hmk]
  · left
    simp [isWhitespaceSensitive, hmk]
  · have hext : extOf path = e := (strEqB_iff.mp heq).symm
    fin_cases he
    · right
      simp [isPythonFilePath, hext, strEqB]
    all_goals
      left
      simp [isWhitespaceSensitive, hext, strEqB]

/-- C9: for any file in the claim's whitespace-sensitive class (including
`py`, which the source exempts through its separate Python flag rather
than the sensitivity list), processing with `removeWhitespace = true`
yields output byte-identical to processing with `removeWhitespace =
false`, for every tokenizer, stripper, content and comment setting. -/
theorem removeWhitespace_flag_noop (enc : String → Nat) (strip : String → Option String)
    (path fileContent : String) (sf : Bool) (m : Option Nat)
    (h : claimWhitespaceSensitive path = true) :
    readAndProcessTextFile enc strip path fileContent ⟨true, sf, m⟩ =
      readAndProcessTextFile enc strip path fileContent ⟨false, sf, m⟩ := by
  rcases claimWS_code_cover h with hws | hpy
  · simp [readAndProcessTextFile, processedTextContent, hws]
  · simp [readAndProcessTextFile, processedTextContent, hpy]

/-- Witness for C9: a YAML file with blank-line runs, identical output
under both whitespace settings. -/
theorem removeWhitespace_flag_noop_witness :
    readAndProcessTextFile String.length (fun _ => none) "config.yaml"
        "a: 1\n\n\n\n\nb: 2" ⟨true, true, none⟩ =
      readAndProcessTextFile String.length (fun _ => none) "config.yaml"
        "a: 1\n\n\n\n\nb: 2" ⟨false, true, none⟩ :=
  removeWhitespace_flag_noop String.length (fun _ => none) "config.yaml"
    "a: 1\n\n\n\n\nb: 2" true none (by decide)

/-- C7 counterexample: for the Python source
`"  # c"`, `"\"\"\""`, `"x # y"`, `"\"\"\""` (an indented comment on its
own line, then a docstring containing `#`), the stripper turns the
comment line into an *empty* line — `trimEnd` also deletes the two
spaces of indentation before the `#` — whereas the claim (`removes
everything from the unquoted # to end of line`, `indentation of all
surviving lines untouched`) demands that the line `"  "` remain. -/
theorem python_strip_counterexample :
    processPythonContent "  # c\n\"\"\"\nx # y\n\"\"\"" = "\n\"\"\"\nx # y\n\"\"\"" ∧
    ("\n\"\"\"\nx # y\n\"\"\"" : String) ≠ "  \n\"\"\"\nx # y\n\"\"\"" := by
  exact ⟨rfl, by decide⟩

theorem mem_of_containsSeq {a : Char} {n l : List Char}
    (h : containsSeq (a :: n) l = true) : a ∈ l := by
  induction l with
  | nil => simp [containsSeq, List.isPrefixOf] at h
  | cons c t ih =>
    simp only [containsSeq, Bool.or_eq_true] at h
    rcases h with h | h
    · simp only [List.isPrefixOf, Bool.and_eq_true, beq_iff_eq] at h
      exact h.1 ▸ List.mem_cons_self _ _
    · exact List.mem_cons_of_mem _ (ih h)

theorem containsSeq_false_of_not_mem {a : Char} {n l : List Char} (h : a ∉ l) :
    containsSeq (a :: n) l = false := by
  cases hcc : containsSeq (a :: n) l
  · rfl
  · exact absurd (mem_of_containsSeq hcc) h

theorem trimChars_within (l : List Char) : trimChars l <:+: l := by
  have h2 : trimStartChars l <:+ l := List.dropWhile_suffix charWS
  have h1 : trimEndChars (trimStartChars l) <+: trimStartChars l := by
    have key : ((trimStartChars l).reverse.dropWhile charWS).reverse <+:
        ((trimStartChars l).reverse).reverse :=
      List.reverse_prefix.mpr (List.dropWhile_suffix charWS)
    rw [List.reverse_reverse] at key
    exact key
  exact (h1.isInfix).trans h2.isInfix

theorem mem_of_mem_trimChars {a : Char} {l : List Char} (h : a ∈ trimChars l) : a ∈ l :=
  List.IsInfix.subset (trimChars_within l) h

theorem trimEndChars_spaces {l : List Char} (h : ∀ ch ∈ l, ch = ' ') :
    trimEndChars l = [] := by
  unfold trimEndChars
  have : l.reverse.dropWhile charWS = [] := by
    rw [List.dropWhile_eq_nil_iff]
    intro x hx
    have := h x (List.mem_reverse.mp hx)
    subst this
    decide
  rw [this, List.reverse_nil]

theorem codeBeforeHash_spaces {p : List Char} (hp : ∀ ch ∈ p, ch = ' ')
    (r : List Char) : codeBeforeHash (p ++ '#' :: r) false false false = some p := by
  induction p with
  | nil => rfl
  | cons ch p ih =>
    have hc : ch = ' ' := hp ch (List.mem_cons_self _ _)
    subst hc
    have hrec := ih (fun x hx => hp x (List.mem_cons_of_mem _ hx))
    show (codeBeforeHash (p ++ '#' :: r) false false false).map (' ' :: ·) = some (' ' :: p)
    rw [hrec]
    rfl

theorem stripLineComment_comment_line {ind c : List Char}
    (hind : ∀ ch ∈ ind, ch = ' ') :
    stripLineComment (ind ++ '#' :: c) = [] := by
  unfold stripLineComment
  rw [codeBeforeHash_spaces hind]
  exact trimEndChars_spaces hind

theorem pyLoop_comment_step (ind c : List Char) (rest : List (List Char))
    (hind : ∀ ch ∈ ind, ch = ' ')
    (hq : containsSeq dq3 (trimChars (ind ++ '#' :: c)) = false)
    (hsq : containsSeq sq3 (trimChars (ind ++ '#' :: c)) = false) :
    pyLoop ((ind ++ '#' :: c) :: rest) none = [] :: pyLoop rest none := by
  simp only [pyLoop, hq, hsq, Bool.false_eq_true, if_false]
  rw [stripLineComment_comment_line hind]

theorem pyLoop_dq3_open (rest : List (List Char)) :
    pyLoop (dq3 :: rest) none = dq3 :: pyLoop rest (some TripleQuote.dq) := rfl

theorem pyLoop_doc_body (d : List (List Char))
    (hd : ∀ l ∈ d, containsSeq dq3 (trimChars l) = false) :
    pyLoop (d ++ [dq3]) (some TripleQuote.dq) = d ++ [dq3] := by
  induction d with
  | nil => rfl
  | cons l ds ih =>
    have h1 : containsSeq dq3 (trimChars l) = false := (hd l (List.mem_cons_self _ _))
    simp only [List.cons_append, pyLoop, tqSeq, h1, Bool.false_eq_true, if_false,
      List.append_eq]
    rw [ih (fun x hx => hd x (List.mem_cons_of_mem _ hx))]

theorem splitOnChar_ne_nil (sep : Char) (l : List Char) : splitOnChar sep l ≠ [] := by
  cases l with
  | nil => simp [splitOnChar]
  | cons c t =>
    simp only [splitOnChar]
    cases h : splitOnChar sep t with
    | nil => simp
    | cons hd tl =>
      by_cases hc : c = sep <;> simp [hc]

theorem splitOnChar_no_sep {sep : Char} {l : List Char} (h : sep ∉ l) :
    splitOnChar sep l = [l] := by
  induction l with
  | nil => rfl
  | cons c t ih =>
    have hc : c ≠ sep := fun he => h (he ▸ List.mem_cons_self _ _)
    have ht : splitOnChar sep t = [t] := ih (fun hm => h (List.mem_cons_of_mem _ hm))
    simp only [splitOnChar, ht]
    rw [if_neg hc]

theorem splitOnChar_append_sep {sep : Char} {l r : List Char} (h : sep ∉ l) :
    splitOnChar sep (l ++ sep :: r) = l :: splitOnChar sep r := by
  induction l with
  | nil =>
    simp only [List.nil_append, splitOnChar]
    cases hs : splitOnChar sep r with
    | nil => exact absurd hs (splitOnChar_ne_nil sep r)
    | cons hd tl => simp
  | cons c t ih =>
    have hc : c ≠ sep := fun he => h (he ▸ List.mem_cons_self _ _)
    have ht := ih (fun hm => h (List.mem_cons_of_mem _ hm))
    simp only [List.cons_append, splitOnChar, List.append_eq, ht]
    rw [if_neg hc]

theorem joinChar_cons (sep : Char) (l : List Char) (ls : List (List Char)) (h : ls ≠ []) :
    joinChar sep (l :: ls) = l ++ sep :: joinChar sep ls := by
  cases ls with
  | nil => exact absurd rfl h
  | cons l₂ ls₂ => rfl

theorem splitOnChar_joinChar (sep : Char) (ls : List (List Char)) (hne : ls ≠ [])
    (h : ∀ l ∈ ls, sep ∉ l) :
    splitOnChar sep (joinChar sep ls) = ls := by
  induction ls with
  | nil => exact absurd rfl hne
  | cons l ls ih =>
    cases ls with
    | nil => exact splitOnChar_no_sep (h l (List.mem_cons_self _ _))
    | cons l₂ ls₂ =>
      rw [joinChar_cons sep l (l₂ :: ls₂) (by simp)]
      rw [splitOnChar_append_sep (h l (List.mem_cons_self _ _))]
      rw [ih (by simp) (fun x hx => h x (List.mem_cons_of_mem _ hx))]

/-- Build a file's content from its lines (join with newlines). -/
def linesToContent (ls : List String) : String :=
  String.mk (joinChar '\n' (ls.map String.data))

/-- C7 amended: for any Python file consisting of a `#`-comment on its
own (possibly indented) line followed by a `"""`-docstring, comment
stripping empties the comment line — removing the comment *and* the
trailing whitespace before the `#`, hence the whole indentation of a
comment-only line — while every docstring line, including any `#` inside
it, is preserved byte-for-byte, and all other lines keep their
indentation. -/
theorem python_strip_amended (ind c : String) (d : List String)
    (hind : ∀ ch ∈ ind.data, ch = ' ')
    (hc : ∀ ch ∈ c.data, ch ≠ '"' ∧ ch ≠ squote ∧ ch ≠ '\n')
    (hd : ∀ l ∈ d, containsSeq dq3 (trimChars l.data) = false ∧ '\n' ∉ l.data) :
    processPythonContent
        (linesToContent ((ind ++ "#" ++ c) :: "\"\"\"" :: (d ++ ["\"\"\""]))) =
      linesToContent ("" :: "\"\"\"" :: (d ++ ["\"\"\""])) := by
  have h1 : (ind ++ "#" ++ c).data = ind.data ++ '#' :: c.data := by
    show (ind.data ++ ['#']) ++ c.data = ind.data ++ '#' :: c.data
    rw [List.append_assoc]
    rfl
  have h0 : ('"' : Char) ∉ ind.data ++ '#' :: c.data := by
    intro hm
    rcases List.mem_append.mp hm with hm | hm
    · exact absurd (hind _ hm) (by decide)
    · rcases List.mem_cons.mp hm with he | hm
      · exact absurd he (by decide)
      · exact absurd rfl (hc _ hm).1
  have h0' : squote ∉ ind.data ++ '#' :: c.data := by
    intro hm
    rcases List.mem_append.mp hm with hm | hm
    · exact absurd (hind _ hm) (by decide)
    · rcases List.mem_cons.mp hm with he | hm
      · exact absurd he (by decide)
      · exact absurd rfl (hc _ hm).2.1
  have hq : containsSeq dq3 (trimChars (ind.data ++ '#' :: c.data)) = false :=
    containsSeq_false_of_not_mem (fun hm => h0 (mem_of_mem_trimChars hm))
  have hsq : containsSeq sq3 (trimChars (ind.data ++ '#' :: c.data)) = false :=
    containsSeq_false_of_not_mem (fun hm => h0' (mem_of_mem_trimChars hm))
  have hX : ((ind ++ "#" ++ c) :: "\"\"\"" :: (d ++ ["\"\"\""])).map String.data =
      (ind.data ++ '#' :: c.data) :: dq3 :: (d.map String.data ++ [dq3]) := by
    simp only [List.map_cons, List.map_append, h1]
    rfl
  have hline : ∀ l ∈ ((ind ++ "#" ++ c) :: "\"\"\"" :: (d ++ ["\"\"\""])).map String.data,
      ('\n' : Char) ∉ l := by
    rw [hX]
    intro l hl
    rcases List.mem_cons.mp hl with rfl | hl
    · intro hm
      rcases List.mem_append.mp hm with hm | hm
      · exact absurd (hind _ hm) (by decide)
      · rcases List.mem_cons.mp hm with he | hm
        · exact absurd he (by decide)
        · exact absurd rfl (hc _ hm).2.2
    · rcases List.mem_cons.mp hl with rfl | hl
      · decide
      · rcases List.mem_append.mp hl with hl | hl
        · rcases List.mem_map.mp hl with ⟨s, hs, rfl⟩
          exact (hd s hs).2
        · rcases List.mem_cons.mp hl with rfl | hl
          · decide
          · simp at hl
  show String.mk (joinChar '\n' (pyLoop (splitOnChar '\n'
      (joinChar '\n' (((ind ++ "#" ++ c) :: "\"\"\"" :: (d ++ ["\"\"\""])).map
        String.data))) none)) = _
  rw [splitOnChar_joinChar '\n' _ (by simp) hline, hX,
    pyLoop_comment_step ind.data c.data _ hind hq hsq, pyLoop_dq3_open,
    pyLoop_doc_body (d.map String.data)
      (by
        intro l hl
        rcases List.mem_map.mp hl with ⟨s, hs, rfl⟩
        exact (hd s hs).1)]
  have hY : ("" :: "\"\"\"" :: (d ++ ["\"\"\""])).map String.data =
      [] :: dq3 :: (d.map String.data ++ [dq3]) := by
    simp only [List.map_cons, List.map_append]
    rfl
  show _ = String.mk (joinChar '\n' (("" :: "\"\"\"" :: (d ++ ["\"\"\""])).map String.data))
  rw [hY]

/-- Witness for C7's amended theorem: indented comment `  # note`, then a
docstring whose body line contains `#`. -/
theorem python_strip_amended_witness :
    processPythonContent
        (linesToContent (("  " ++ "#" ++ " note") :: "\"\"\"" ::
          (["keep # this"] ++ ["\"\"\""]))) =
      linesToContent ("" :: "\"\"\"" :: (["keep # this"] ++ ["\"\"\""])) :=
  python_strip_amended "  " " note" ["keep # this"]
    (by decide) (by decide) (by decide)

/-! ## The processing loops of `processFiles` (src/core.ts)

The per-file steps of the include loop (stat + size check, binary/SVG
detection, read and transform) depend on the file system; their outcome
for each path is abstracted as a `step` function: skipped for size,
processed to a result, or threw with an error message (the `catch`
path). -/

/-- Outcome of the `try` body of `processFiles`' include loop for one
file, as determined by the file system. -/
inductive ProcessOutcome
  | skipLarge
  | ok (r : ProcessedFile) (isBinary : Bool)
  | err (msg : String)

/-- The statistics fields `processFiles` updates while processing. -/
structure ProcessStats where
  skippedLargeFiles : Nat
  binaryAndSvgFiles : Nat
  totalTokenCount : Nat
  totalFileSizeKB : Rat
  deriving DecidableEq, Repr

/-- `updateStats` of fileProcessors.ts: add the result's token count and
its content size in KB to the running totals; count binary files. -/
def updateStats (s : ProcessStats) (result : ProcessedFile) (isBinary : Bool) :
    ProcessStats :=
  { s with
    totalTokenCount := s.totalTokenCount + result.tokenCount,
    totalFileSizeKB := s.totalFileSizeKB + (result.content.length : Rat) / 1024,
    binaryAndSvgFiles :=
      if isBinary then s.binaryAndSvgFiles + 1 else s.binaryAndSvgFiles }

/-- The include loop of `processFiles`: size-skipped files are only
counted; successful results are appended with their statistics; a throw
is caught and replaced by `handleFileError`'s placeholder, which is
appended and counted exactly like a successful result. -/
def processIncludeLoop (enc : String → Nat) (step : String → ProcessOutcome) :
    List String → List ProcessedFile → ProcessStats →
    List ProcessedFile × ProcessStats
  | [], results, stats => (results, stats)
  | filePath :: rest, results, stats =>
    match step filePath with
    | .skipLarge =>
      processIncludeLoop enc step rest results
        { stats with skippedLargeFiles := stats.skippedLargeFiles + 1 }
    | .ok r isBinary =>
      processIncludeLoop enc step rest (results ++ [r]) (updateStats stats r isBinary)
    | .err msg =>
      processIncludeLoop enc step rest
        (results ++ [handleFileError enc filePath msg])
        (updateStats stats (handleFileError enc filePath msg) false)

/-- The minify loop of `processFiles`: every minify-classified file
yields a placeholder result with its statistics. -/
def processMinifyLoop (enc : String → Nat) (onMinifyFile : Option (String → String)) :
    List String → List ProcessedFile → ProcessStats →
    List ProcessedFile × ProcessStats
  | [], results, stats => (results, stats)
  | filePath :: rest, results, stats =>
    processMinifyLoop enc onMinifyFile rest
      (results ++ [processMinifiedFile enc filePath onMinifyFile])
      (updateStats stats (processMinifiedFile enc filePath onMinifyFile) false)

/-- `processFiles` from the classified lists onward: run the include
loop, then the minify loop on the same accumulators. -/
def processFiles (enc : String → Nat) (step : String → ProcessOutcome)
    (onMinifyFile : Option (String → String))
    (filesToInclude filesToMinify : List String) (stats : ProcessStats) :
    List ProcessedFile × ProcessStats :=
  let afterInclude := processIncludeLoop enc step filesToInclude [] stats
  processMinifyLoop enc onMinifyFile filesToMinify afterInclude.1 afterInclude.2

/-- Size contribution (`content.length / 1024`) summed over results. -/
def sumSizeKB (l : List ProcessedFile) : Rat :=
  (l.map (fun f => (f.content.length : Rat) / 1024)).sum

theorem processIncludeLoop_spec (enc : String → Nat) (step : String → ProcessOutcome)
    (files : List String) :
    ∀ (results : List ProcessedFile) (stats : ProcessStats),
    ∃ Δ, (processIncludeLoop enc step files results stats).1 = results ++ Δ ∧
      (processIncludeLoop enc step files results stats).2.totalTokenCount =
        stats.totalTokenCount + sumTok Δ ∧
      (processIncludeLoop enc step files results stats).2.totalFileSizeKB =
        stats.totalFileSizeKB + sumSizeKB Δ := by
  induction files with
  | nil =>
    intro results stats
    exact ⟨[], by simp [processIncludeLoop, sumTok, sumSizeKB]⟩
  | cons f rest ih =>
    intro results stats
    cases hs : step f with
    | skipLarge =>
      obtain ⟨Δ, h1, h2, h3⟩ :=
        ih results { stats with skippedLargeFiles := stats.skippedLargeFiles + 1 }
      exact ⟨Δ, by simp only [processIncludeLoop, hs]; exact h1,
        by simp only [processIncludeLoop, hs]; exact h2,
        by simp only [processIncludeLoop, hs]; exact h3⟩
    | ok r b =>
      obtain ⟨Δ, h1, h2, h3⟩ := ih (results ++ [r]) (updateStats stats r b)
      refine ⟨r :: Δ, ?_, ?_, ?_⟩
      · simp only [processIncludeLoop, hs]
        rw [h1]
        simp
      · simp only [processIncludeLoop, hs]
        rw [h2]
        simp only [updateStats, sumTok, List.map_cons, List.sum_cons]
        omega
      · simp only [processIncludeLoop, hs]
        rw [h3]
        simp only [updateStats, sumSizeKB, List.map_cons, List.sum_cons]
        ring
    | err msg =>
      obtain ⟨Δ, h1, h2, h3⟩ :=
        ih (results ++ [handleFileError enc f msg])
          (updateStats stats (handleFileError enc f msg) false)
      refine ⟨handleFileError enc f msg :: Δ, ?_, ?_, ?_⟩
      · simp only [processIncludeLoop, hs]
        rw [h1]
        simp
      · simp only [processIncludeLoop, hs]
        rw [h2]
        simp only [updateStats, sumTok, List.map_cons, List.sum_cons]
        omega
      · simp only [processIncludeLoop, hs]
        rw [h3]
        simp only [updateStats, sumSizeKB, List.map_cons, List.sum_cons]
        ring

theorem processMinifyLoop_spec (enc : String → Nat) (onMin : Option (String → String))
    (files : List String) :
    ∀ (results : List ProcessedFile) (stats : ProcessStats),
    ∃ Δ, (processMinifyLoop enc onMin files results stats).1 = results ++ Δ ∧
      (processMinifyLoop enc onMin files results stats).2.totalTokenCount =
        stats.totalTokenCount + sumTok Δ ∧
      (processMinifyLoop enc onMin files results stats).2.totalFileSizeKB =
        stats.totalFileSizeKB + sumSizeKB Δ := by
  induction files with
  | nil =>
    intro results stats
    exact ⟨[], by simp [processMinifyLoop, sumTok, sumSizeKB]⟩
  | cons f rest ih =>
    intro results stats
    obtain ⟨Δ, h1, h2, h3⟩ :=
      ih (results ++ [processMinifiedFile enc f onMin])
        (updateStats stats (processMinifiedFile enc f onMin) false)
    refine ⟨processMinifiedFile enc f onMin :: Δ, ?_, ?_, ?_⟩
    · simp only [processMinifyLoop]
      rw [h1]
      simp
    · simp only [processMinifyLoop]
      rw [h2]
      simp only [updateStats, sumTok, List.map_cons, List.sum_cons]
      omega
    · simp only [processMinifyLoop]
      rw [h3]
      simp only [updateStats, sumSizeKB, List.map_cons, List.sum_cons]
      ring

theorem processIncludeLoop_mem_err (enc : String → Nat) (step : String → ProcessOutcome)
    {files : List String} {p msg : String} (hp : p ∈ files)
    (hstep : step p = ProcessOutcome.err msg) :
    ∀ (results : List ProcessedFile) (stats : ProcessStats),
    handleFileError enc p msg ∈ (processIncludeLoop enc step files results stats).1 := by
  induction files with
  | nil => simp at hp
  | cons f rest ih =>
    intro results stats
    rcases List.mem_cons.mp hp with rfl | hp
    · simp only [processIncludeLoop, hstep]
      obtain ⟨Δ, h1, -, -⟩ := processIncludeLoop_spec enc step rest
        (results ++ [handleFileError enc p msg])
        (updateStats stats (handleFileError enc p msg) false)
      rw [h1]
      simp
    · cases hs : step f with
      | skipLarge => simp only [processIncludeLoop, hs]; exact ih hp _ _
      | ok r b => simp only [processIncludeLoop, hs]; exact ih hp _ _
      | err m => simp only [processIncludeLoop, hs]; exact ih hp _ _

/-- C10: when the transformation of an include-classified file throws
(read failure, permission error, late stat failure), the run does not
abort and the file is not dropped: `handleFileError`'s placeholder —
whose content is the formatted bracketed message
`[Error: Could not read file <path>. <error>]` with its own token count —
appears in `processFiles`' result list, and the final totals equal the
initial statistics plus the token and size sums over all emitted results,
the error placeholder contributing exactly like any other file. -/
theorem error_placeholder_retained (enc : String → Nat) (step : String → ProcessOutcome)
    (onMin : Option (String → String)) (inc minf : List String) (stats0 : ProcessStats)
    (p msg : String) (hp : p ∈ inc) (hstep : step p = ProcessOutcome.err msg) :
    handleFileError enc p msg ∈ (processFiles enc step onMin inc minf stats0).1 ∧
    (processFiles enc step onMin inc minf stats0).2.totalTokenCount =
      stats0.totalTokenCount + sumTok (processFiles enc step onMin inc minf stats0).1 ∧
    (processFiles enc step onMin inc minf stats0).2.totalFileSizeKB =
      stats0.totalFileSizeKB + sumSizeKB (processFiles enc step onMin inc minf stats0).1 ∧
    (handleFileError enc p msg).content =
      formatFileContent p (errorPlaceholder p msg) ∧
    (handleFileError enc p msg).tokenCount = enc (errorPlaceholder p msg) := by
  obtain ⟨Δ₁, g1, g2, g3⟩ := processIncludeLoop_spec enc step inc [] stats0
  obtain ⟨Δ₂, m1, m2, m3⟩ := processMinifyLoop_spec enc onMin minf
    (processIncludeLoop enc step inc [] stats0).1
    (processIncludeLoop enc step inc [] stats0).2
  refine ⟨?_, ?_, ?_, rfl, rfl⟩
  · have hmem := processIncludeLoop_mem_err enc step hp hstep [] stats0
    show handleFileError enc p msg ∈
      (processMinifyLoop enc onMin minf
        (processIncludeLoop enc step inc [] stats0).1
        (processIncludeLoop enc step inc [] stats0).2).1
    rw [m1]
    exact List.mem_append_left _ hmem
  · show (processMinifyLoop enc onMin minf _ _).2.totalTokenCount =
      stats0.totalTokenCount +
        sumTok (processMinifyLoop enc onMin minf
          (processIncludeLoop enc step inc [] stats0).1
          (processIncludeLoop enc step inc [] stats0).2).1
    rw [m2, g2, m1, g1, List.nil_append, sumTok_append]
    omega
  · show (processMinifyLoop enc onMin minf _ _).2.totalFileSizeKB =
      stats0.totalFileSizeKB +
        sumSizeKB (processMinifyLoop enc onMin minf
          (processIncludeLoop enc step inc [] stats0).1
          (processIncludeLoop enc step inc [] stats0).2).1
    have hsz : sumSizeKB (Δ₁ ++ Δ₂) = sumSizeKB Δ₁ + sumSizeKB Δ₂ := by
      simp [sumSizeKB]
    rw [m3, g3, m1, g1, List.nil_append, hsz]
    ring

/-- Witness for C10: one unreadable include file and one minify file; the
error placeholder for `a.txt` is in the output. -/
theorem error_placeholder_retained_witness :
    handleFileError String.length "a.txt" "EACCES" ∈
      (processFiles String.length (fun _ => ProcessOutcome.err "EACCES") none
        ["a.txt"] ["b.json"] ⟨0, 0, 0, 0⟩).1 :=
  (error_placeholder_retained String.length (fun _ => ProcessOutcome.err "EACCES") none
    ["a.txt"] ["b.json"] ⟨0, 0, 0, 0⟩ "a.txt" "EACCES"
    (by decide) rfl).1

end SrcContext
